import Mathlib

/-!
Verification of the `freqs` byte-frequency tool (src/main.rs).

The program streams a file through a `BufReader` in chunks of up to
`CHUNKSIZE` bytes, tallying each byte into a 256-entry array of `u32`
counters (`byte_occurences`), then renders one line per nonzero-count
byte value: a blank line first, then lines formatted as
`  {hex:<3}: {count}: {label}` where `hex` is Rust's `{:x}` (minimal
width, lowercase) and `label` comes from a match over control codes with
a fallback to the literal character.

Bytes are modelled as `Nat` (values `< 256`); the `u32` counters wrap,
so increments are taken modulo `2^32`.
-/

/-- Modulus of the `u32` counters in `byte_occurences`. -/
def U32MOD : Nat := 2 ^ 32

/-- `const CHUNKSIZE: usize = 1024 * 128;` -/
def CHUNKSIZE : Nat := 1024 * 128

/-- The 256-slot count table `byte_occurences`, indexed by byte value. -/
def CountTable : Type := Nat → Nat

/-- `let mut byte_occurences = [0u32; 256];` -/
def zeroTable : CountTable := fun _ => 0

/-- One execution of `byte_occurences[*byte as usize] += 1` (u32 wrap). -/
def bump (t : CountTable) (b : Nat) : CountTable :=
  fun i => if i = b then (t b + 1) % U32MOD else t i

/-- `for byte in chunk.iter() { byte_occurences[*byte as usize] += 1; }` -/
def countChunk (chunk : List Nat) (t : CountTable) : CountTable :=
  chunk.foldl bump t

/-- Tally of a whole byte sequence, chunk structure forgotten. -/
def countList (l : List Nat) : CountTable :=
  countChunk l zeroTable

/-- Recursion core of `chunksOf`; `fuel` is an upper bound on the list
length, so that the recursion is structural. -/
def chunksOfGo (c : Nat) : Nat → List Nat → List (List Nat)
  | _, [] => []
  | 0, _ :: _ => []
  | fuel + 1, x :: xs => (x :: xs.take (c - 1)) :: chunksOfGo c fuel (xs.drop (c - 1))

/-- Split a byte sequence into the successive chunks a reader of capacity
`c` delivers: every chunk nonempty, of length at most `max c 1`. -/
def chunksOf (c : Nat) (l : List Nat) : List (List Nat) :=
  chunksOfGo c l.length l

/-- The chunk loop of `main` run over an error-free source of byte
length `l`, read with chunk capacity `c`: each `fill_buf` returns the
next chunk, the chunk is tallied, then consumed; the loop stops at the
first empty chunk (end of source). -/
def countSource (c : Nat) (l : List Nat) : CountTable :=
  (chunksOf c l).foldl (fun t ch => countChunk ch t) zeroTable

/-- A single `fill_buf` outcome: `some chunk` for `Ok(chunk)`,
`none` for `Err(_)`. -/
abbrev ReadResult : Type := Option (List Nat)

/-- The chunk loop of `main` over an arbitrary stream of `fill_buf`
results: on `Ok(chunk)` the chunk is tallied and the loop continues
unless the chunk was empty; on `Err(_)` the `if let Ok` branch is
skipped, `length_of_chunk` is `0`, and the loop breaks. -/
def countLoop : List ReadResult → CountTable → CountTable
  | [], t => t
  | none :: _, t => t
  | some ch :: rest, t =>
      if ch.isEmpty then t else countLoop rest (countChunk ch t)

/-- Sum of all 256 entries of a count table. -/
def sumTable (t : CountTable) : Nat :=
  ((List.range 256).map t).sum

/-- Rust `format!("{:x}", b)`: lowercase hex, minimal width. -/
def hexStr (b : Nat) : String :=
  String.mk (Nat.toDigits 16 b)

/-- Rust `format!("{0: <3}", s)`: left-align, pad with spaces to width 3. -/
def padTo3 (s : String) : String :=
  s ++ String.mk (List.replicate (3 - s.length) ' ')

/-- The symbolic-name map of the renderer (the explicit match arms,
without the fallback): C0 control codes, space, DEL, NBSP, soft hyphen. -/
def labelTable (b : Nat) : Option String :=
  match b with
  | 0x00 => some "<NULL>"
  | 0x01 => some "<SOH>"
  | 0x02 => some "<STX>"
  | 0x03 => some "<ETX>"
  | 0x04 => some "<EOT>"
  | 0x05 => some "<ENQ>"
  | 0x06 => some "<ACK>"
  | 0x07 => some "<BEL"
  | 0x08 => some "<BS>"
  | 0x09 => some "<TAB>"
  | 0x0a => some "\\n"
  | 0x0b => some "<VT>"
  | 0x0c => some "<FF>"
  | 0x0d => some "\\r"
  | 0x0e => some "<SO>"
  | 0x0f => some "<SI>"
  | 0x10 => some "<DLE>"
  | 0x11 => some "<DC1>"
  | 0x12 => some "<DC2>"
  | 0x13 => some "<DC3>"
  | 0x14 => some "<DC4>"
  | 0x15 => some "<NAK>"
  | 0x16 => some "<SYN>"
  | 0x17 => some "<ETB>"
  | 0x18 => some "<EM>"
  | 0x19 => some "<SUB>"
  | 0x1a => some "<SUB>"
  | 0x1b => some "<ESC>"
  | 0x1c => some "<FS>"
  | 0x1d => some "<GS>"
  | 0x1e => some "<RS>"
  | 0x1f => some "<US>"
  | 0x20 => some "<space>"
  | 0x7f => some "<DEL>"
  | 0xa0 => some "<non break space>"
  | 0xad => some "<soft hyphen>"
  | _ => none

/-- The literal-character fallback `b => format!("{}", b as char)`. -/
def litChar (b : Nat) : String :=
  String.mk [Char.ofNat b]

/-- The full label match of the renderer: symbolic name when present,
otherwise the byte cast to a character. -/
def label (b : Nat) : String :=
  (labelTable b).getD (litChar b)

/-- One pushed line: `format!("  {0: <3}: {1}: {2}", hex, count, label)`. -/
def lineFor (b : Nat) (count : Nat) : String :=
  "  " ++ padTo3 (hexStr b) ++ ": " ++ Nat.repr count ++ ": " ++ label b

/-- The render loop of `main`: start from `vec![String::from("")]`, then
for each `(byte, byte_count)` of the enumerated table push a line when
the count is nonzero. -/
def render (t : CountTable) : List String :=
  (List.range 256).foldl
    (fun acc b => if t b ≠ 0 then acc ++ [lineFor b (t b)] else acc) [""]

/-- Whole run of `main` past argument handling, over a stream of
`fill_buf` results: count, then render. -/
def progOutput (reads : List ReadResult) : List String :=
  render (countLoop reads zeroTable)

/-! ### Counting lemmas -/

lemma countChunk_append (a b : List Nat) (t : CountTable) :
    countChunk (a ++ b) t = countChunk b (countChunk a t) := by
  simp [countChunk, List.foldl_append]

lemma foldl_countChunk_flatten :
    ∀ (chunks : List (List Nat)) (t : CountTable),
      chunks.foldl (fun t ch => countChunk ch t) t = countChunk chunks.flatten t := by
  intro chunks
  induction chunks with
  | nil => intro t; rfl
  | cons ch chunks ih =>
    intro t
    rw [List.foldl_cons, ih, List.flatten_cons, countChunk_append]

lemma flatten_chunksOfGo (c : Nat) :
    ∀ (fuel : Nat) (l : List Nat), l.length ≤ fuel →
      (chunksOfGo c fuel l).flatten = l := by
  intro fuel
  induction fuel with
  | zero =>
    intro l h
    cases l with
    | nil => rfl
    | cons x xs => simp at h
  | succ n ih =>
    intro l h
    cases l with
    | nil => rfl
    | cons x xs =>
      have hlen : (xs.drop (c - 1)).length ≤ n := by
        simp only [List.length_drop]
        simp only [List.length_cons] at h
        omega
      simp only [chunksOfGo, List.flatten_cons, ih _ hlen]
      simp [List.take_append_drop]

lemma flatten_chunksOf (c : Nat) (l : List Nat) : (chunksOf c l).flatten = l :=
  flatten_chunksOfGo c l.length l le_rfl

lemma countSource_eq_countList (c : Nat) (l : List Nat) :
    countSource c l = countList l := by
  unfold countSource countList
  rw [foldl_countChunk_flatten, flatten_chunksOf]

lemma foldl_bump_apply :
    ∀ (l : List Nat) (t : CountTable) (i : Nat), t i < U32MOD →
      (l.foldl bump t) i = (t i + l.count i) % U32MOD := by
  intro l
  induction l with
  | nil =>
    intro t i h
    simp [Nat.mod_eq_of_lt h]
  | cons b l ih =>
    intro t i h
    have hmpos : 0 < U32MOD := by decide
    have hlt : bump t b i < U32MOD := by
      by_cases hi : i = b
      · simp only [bump, hi, if_pos rfl]
        exact Nat.mod_lt _ hmpos
      · simpa [bump, hi] using h
    rw [List.foldl_cons, ih _ _ hlt]
    by_cases hi : i = b
    · subst hi
      have h1 : bump t i i = (t i + 1) % U32MOD := by simp [bump]
      have h2 : List.count i (i :: l) = List.count i l + 1 := by
        simp [List.count_cons]
      rw [h1, h2, Nat.mod_add_mod]
      congr 1
      omega
    · have h1 : bump t b i = t i := by simp [bump, hi]
      have h2 : List.count i (b :: l) = List.count i l := by
        simp [List.count_cons, hi]
      rw [h1, h2]

lemma countList_apply (l : List Nat) (i : Nat) :
    countList l i = l.count i % U32MOD := by
  have h := foldl_bump_apply l zeroTable i (by simp [zeroTable]; decide)
  simpa [countList, countChunk, zeroTable] using h

/-! ### Sum lemmas -/

lemma sum_map_add (ns : List Nat) (f g : Nat → Nat) :
    (ns.map (fun i => f i + g i)).sum = (ns.map f).sum + (ns.map g).sum := by
  induction ns with
  | nil => rfl
  | cons n ns ih =>
    simp only [List.map_cons, List.sum_cons, ih]
    omega

lemma sum_indicator_ge (b : Nat) :
    ∀ n, n ≤ b → ((List.range n).map (fun i => if i = b then 1 else 0)).sum = 0 := by
  intro n
  induction n with
  | zero => intro _; rfl
  | succ n ih =>
    intro h
    have hnb : n ≠ b := by omega
    rw [List.range_succ, List.map_append, List.sum_append, ih (by omega)]
    simp [hnb]

lemma sum_indicator_lt (b : Nat) :
    ∀ n, b < n → ((List.range n).map (fun i => if i = b then 1 else 0)).sum = 1 := by
  intro n
  induction n with
  | zero => intro h; omega
  | succ n ih =>
    intro h
    rw [List.range_succ, List.map_append, List.sum_append]
    by_cases hb : b = n
    · subst hb
      rw [sum_indicator_ge b b le_rfl]
      simp
    · have hnb : n ≠ b := fun hx => hb hx.symm
      rw [ih (by omega)]
      simp [hnb]

lemma sum_count_range :
    ∀ (l : List Nat), (∀ b ∈ l, b < 256) →
      ((List.range 256).map (fun i => l.count i)).sum = l.length := by
  intro l
  induction l with
  | nil =>
    intro _
    refine List.sum_eq_zero ?_
    intro x hx
    rcases List.mem_map.mp hx with ⟨a, _, hax⟩
    rw [← hax, List.count_nil]
  | cons x l ih =>
    intro hb
    have hx : x < 256 := hb x (List.mem_cons_self x l)
    have hl : ∀ b ∈ l, b < 256 := fun b hm => hb b (List.mem_cons_of_mem x hm)
    have hsplit : ∀ i, (x :: l).count i = l.count i + (if i = x then 1 else 0) := by
      intro i
      by_cases hi : i = x
      · subst hi; simp [List.count_cons]
      · simp [List.count_cons, hi]
    calc ((List.range 256).map (fun i => (x :: l).count i)).sum
        = ((List.range 256).map (fun i => l.count i + (if i = x then 1 else 0))).sum := by
          rw [List.map_congr_left (fun a _ => hsplit a)]
      _ = ((List.range 256).map (fun i => l.count i)).sum
            + ((List.range 256).map (fun i => if i = x then 1 else 0)).sum :=
          sum_map_add _ _ _
      _ = l.length + 1 := by rw [ih hl, sum_indicator_lt x 256 hx]
      _ = (x :: l).length := by simp

lemma sumTable_countList (l : List Nat) (hb : ∀ b ∈ l, b < 256)
    (hlen : l.length < U32MOD) :
    sumTable (countList l) = l.length := by
  unfold sumTable
  have hpt : ∀ i ∈ List.range 256, countList l i = l.count i := by
    intro i _
    rw [countList_apply]
    exact Nat.mod_eq_of_lt (lt_of_le_of_lt (List.count_le_length i l) hlen)
  rw [List.map_congr_left hpt]
  exact sum_count_range l hb

/-! ### Render lemmas -/

lemma foldl_push_filter_map (t : CountTable) :
    ∀ (bs : List Nat) (acc : List String),
      bs.foldl (fun acc b => if t b ≠ 0 then acc ++ [lineFor b (t b)] else acc) acc
        = acc ++ (bs.filter (fun b => t b ≠ 0)).map (fun b => lineFor b (t b)) := by
  intro bs
  induction bs with
  | nil => intro acc; simp
  | cons b bs ih =>
    intro acc
    rw [List.foldl_cons]
    by_cases h : t b ≠ 0
    · rw [if_pos h, ih, List.filter_cons_of_pos (by simpa using h)]
      simp
    · rw [if_neg h, ih, List.filter_cons_of_neg (by simpa using h)]

lemma render_eq_filter_map (t : CountTable) :
    render t
      = "" :: ((List.range 256).filter (fun b => t b ≠ 0)).map (fun b => lineFor b (t b)) := by
  unfold render
  rw [foldl_push_filter_map]
  rfl

/-! ### Error-path lemmas -/

lemma countLoop_stops_at_error :
    ∀ (pre rest : List ReadResult) (t : CountTable),
      (∀ x ∈ pre, ∃ ch, x = some ch ∧ ch ≠ []) →
      countLoop (pre ++ none :: rest) t = countChunk (pre.filterMap id).flatten t := by
  intro pre
  induction pre with
  | nil => intro rest t _; rfl
  | cons x pre ih =>
    intro rest t h
    obtain ⟨ch, hx, hne⟩ := h x (List.mem_cons_self x pre)
    subst hx
    have hemp : ch.isEmpty = false := by
      cases ch with
      | nil => exact absurd rfl hne
      | cons y ys => rfl
    rw [List.cons_append]
    show (if ch.isEmpty then t else countLoop (pre ++ none :: rest) (countChunk ch t)) = _
    rw [hemp]
    simp only [Bool.false_eq_true, if_false]
    rw [ih rest (countChunk ch t) (fun z hz => h z (List.mem_cons_of_mem _ hz)),
      ← countChunk_append]
    congr 1

/-! ### Claim theorems -/

/-- C1 counterexample: on a source of `2^32` zero bytes the `u32` counter
for byte `0` wraps to `0`, so the 256 entries sum to `0`, not to the byte
length of the source. -/
theorem freqs_C1_counterexample :
    ¬ (sumTable (countSource 1 (List.replicate U32MOD 0))
        = (List.replicate U32MOD 0).length) := by
  intro hcontra
  rw [countSource_eq_countList] at hcontra
  have hz : ∀ i ∈ List.range 256, countList (List.replicate U32MOD 0) i = 0 := by
    intro i _
    rw [countList_apply, List.count_replicate]
    by_cases h0 : ((0 : Nat) == i) = true
    · rw [if_pos h0, Nat.mod_self]
    · rw [if_neg h0, Nat.zero_mod]
  have hsum : sumTable (countList (List.replicate U32MOD 0)) = 0 := by
    unfold sumTable
    refine List.sum_eq_zero ?_
    intro x hx
    rcases List.mem_map.mp hx with ⟨a, ha, hax⟩
    rw [← hax]
    exact hz a ha
  rw [hsum, List.length_replicate] at hcontra
  exact absurd hcontra (by decide)

/-- C1 (amended): for every input byte source shorter than `2^32` bytes
and every chunk capacity `≥ 1`, after the counting loop completes the
sum of all 256 entries of the resulting count table equals the byte
length of the source. -/
theorem freqs_C1_sum_eq_length (l : List Nat) (c : Nat) (hc : 1 ≤ c)
    (hb : ∀ b ∈ l, b < 256) (hlen : l.length < U32MOD) :
    sumTable (countSource c l) = l.length := by
  rw [countSource_eq_countList]
  exact sumTable_countList l hb hlen

/-- C1 witness: the amended claim at capacity `2` on the four-byte
source `[0, 255, 7, 7]`. -/
theorem freqs_C1_sum_eq_length_witness :
    1 ≤ 2 ∧ (∀ b ∈ [(0 : Nat), 255, 7, 7], b < 256)
      ∧ [(0 : Nat), 255, 7, 7].length < U32MOD
      ∧ sumTable (countSource 2 [0, 255, 7, 7]) = [(0 : Nat), 255, 7, 7].length :=
  ⟨by decide, by decide, by decide,
    freqs_C1_sum_eq_length [0, 255, 7, 7] 2 (by decide) (by decide) (by decide)⟩

set_option maxRecDepth 4000 in
/-- C2 counterexample: on a stream whose first `fill_buf` returns the
byte `0x41` and whose second returns an I/O error, the loop keeps the
partial count (entry `0x41` is `1`) and the program still renders a data
line for it — the run is not all-or-nothing. -/
theorem freqs_C2_counterexample :
    countLoop [some [65], none] zeroTable 65 = 1 ∧
    progOutput [some [65], none] = ["", "  41 : 1: A"] := by
  constructor
  · decide
  · decide

/-- C2 (amended): if a read fails mid-stream, the counting loop stops at
the error as if the source had ended: the bytes of the chunks received
before the error — and only those — are counted, the partial count table
is kept, and result lines are rendered from it. -/
theorem freqs_C2_error_truncates (pre rest : List ReadResult)
    (h : ∀ x ∈ pre, ∃ ch, x = some ch ∧ ch ≠ []) :
    countLoop (pre ++ none :: rest) zeroTable = countList (pre.filterMap id).flatten ∧
    progOutput (pre ++ none :: rest) = render (countList (pre.filterMap id).flatten) := by
  have h1 := countLoop_stops_at_error pre rest zeroTable h
  constructor
  · exact h1
  · unfold progOutput
    rw [h1]
    rfl

/-- C2 witness: the amended claim on the stream `Ok [0x41]`, error,
`Ok [0x42]`. -/
theorem freqs_C2_error_truncates_witness :
    countLoop ([some [65]] ++ none :: [some [66]]) zeroTable
        = countList ((([some [65]] : List ReadResult).filterMap id).flatten) ∧
    progOutput ([some [65]] ++ none :: [some [66]])
        = render (countList ((([some [65]] : List ReadResult).filterMap id).flatten)) :=
  freqs_C2_error_truncates [some [65]] [some [66]]
    (fun x hx => by
      rw [List.mem_singleton] at hx
      exact ⟨[65], hx, by decide⟩)

set_option maxRecDepth 4000 in
/-- C3 counterexample: the hex field of the renderer is Rust's `{:x}`,
which has no zero padding: byte `0x00` renders with hex field `0`, not
`00`, and byte `0x0a` with `a`, not `0a`; the full output on the input
`0x00 0x41 0x41 0x0A` contains no `00` or `0a` field. -/
theorem freqs_C3_counterexample :
    hexStr 0 ≠ "00" ∧ hexStr 10 ≠ "0a" ∧
    render (countSource CHUNKSIZE [0, 65, 65, 10]) =
      ["", "  0  : 1: <NULL>", "  a  : 1: \\n", "  41 : 2: A"] :=
  ⟨by decide, by decide, by decide⟩

set_option maxRecDepth 4000 in
/-- C3 (amended): the 4-byte input `0x00 0x41 0x41 0x0A` yields counts
`{0x00 : 1, 0x41 : 2, 0x0A : 1}` and the renderer emits a blank line and
exactly three data lines, labelled `<NULL>`, backslash-n and `A`, whose
hex fields are the unpadded `0`, `a` and `41`. -/
theorem freqs_C3_four_bytes :
    countSource CHUNKSIZE [0, 65, 65, 10] 0 = 1 ∧
    countSource CHUNKSIZE [0, 65, 65, 10] 65 = 2 ∧
    countSource CHUNKSIZE [0, 65, 65, 10] 10 = 1 ∧
    render (countSource CHUNKSIZE [0, 65, 65, 10]) =
      ["", "  0  : 1: <NULL>", "  a  : 1: \\n", "  41 : 2: A"] :=
  ⟨by decide, by decide, by decide, by decide⟩

/-- C4: for every count table, the rendered output is a blank first line
followed by exactly one line per byte value with nonzero count, in
ascending byte-value order over `0..255`, each formatted as two spaces,
the lowercase hex of the byte left-aligned to width 3, `: `, the decimal
count, `: `, and the label; the whole sequence has at most 257 lines. -/
theorem freqs_C4_render_format (t : CountTable) :
    render t
      = "" :: ((List.range 256).filter (fun b => t b ≠ 0)).map
          (fun b => "  " ++ padTo3 (hexStr b) ++ ": " ++ Nat.repr (t b) ++ ": " ++ label b) ∧
    (render t).length ≤ 257 := by
  have h := render_eq_filter_map t
  constructor
  · rw [h]
    rfl
  · rw [h]
    simp only [List.length_cons, List.length_map]
    have hf := List.length_filter_le (fun b => decide (t b ≠ 0)) (List.range 256)
    rw [List.length_range] at hf
    omega

/-- C5: counting is invariant to chunk capacity: for every input byte
sequence, the counting loop with chunk capacity 1 and with chunk
capacity 1048576 yields identical count tables. -/
theorem freqs_C5_capacity_invariant (l : List Nat) :
    countSource 1 l = countSource 1048576 l := by
  rw [countSource_eq_countList, countSource_eq_countList]

set_option maxRecDepth 4000 in
/-- C6: for a zero-length input the counting loop terminates with all
256 counts equal to zero, and the renderer produces only the leading
blank line. -/
theorem freqs_C6_empty_input (c : Nat) :
    (∀ i, countSource c [] i = 0) ∧ render (countSource c []) = [""] := by
  have h : countSource c [] = zeroTable := by
    rw [countSource_eq_countList]
    rfl
  constructor
  · intro i
    rw [h]
    rfl
  · rw [h]
    decide

set_option maxRecDepth 4000 in
/-- C7: for every byte value present in the label table, the renderer's
label is exactly the symbolic name from the table and never the byte's
literal character. -/
theorem freqs_C7_symbolic_labels (b : Nat) (hb : b < 256)
    (h : (labelTable b).isSome = true) :
    labelTable b = some (label b) ∧ label b ≠ litChar b := by
  revert b hb h
  decide

/-- C7 witness: the claim at byte `0x00`, whose symbolic name is
`<NULL>`. -/
theorem freqs_C7_symbolic_labels_witness :
    (0 : Nat) < 256 ∧ (labelTable 0).isSome = true ∧
    (labelTable 0 = some (label 0) ∧ label 0 ≠ litChar 0) :=
  ⟨by decide, by decide, freqs_C7_symbolic_labels 0 (by decide) (by decide)⟩

/-- C8: rendering is a pure, deterministic function of the count table:
tables with equal entries render to identical line sequences (and in
this pure embedding rendering cannot mutate its input). -/
theorem freqs_C8_render_deterministic (t1 t2 : CountTable) (h : ∀ i, t1 i = t2 i) :
    render t1 = render t2 := by
  have ht : t1 = t2 := funext h
  rw [ht]

/-- C8 witness: two syntactically different but pointwise-equal tables
render identically. -/
theorem freqs_C8_render_deterministic_witness :
    (∀ i, zeroTable i = (fun j : Nat => j - j) i) ∧
    render zeroTable = render (fun j : Nat => j - j) :=
  ⟨fun i => (Nat.sub_self i).symm,
    freqs_C8_render_deterministic zeroTable (fun j : Nat => j - j)
      (fun i => (Nat.sub_self i).symm)⟩

/-- C9: each per-byte count is kept in a `u32` and incremented once per
occurrence, so the stored entry is the true occurrence count modulo
`2^32`; when a byte occurs `2^32` or more times the entry differs from
the true count. -/
theorem freqs_C9_u32_wrap (l : List Nat) (b : Nat) :
    countList l b = l.count b % U32MOD ∧
    (U32MOD ≤ l.count b → countList l b ≠ l.count b) := by
  refine ⟨countList_apply l b, ?_⟩
  intro h
  rw [countList_apply]
  have hlt : l.count b % U32MOD < U32MOD := Nat.mod_lt _ (by decide)
  omega

/-- C9 witness: on `2^32` zero bytes the stored entry for byte `0`
differs from the true occurrence count. -/
theorem freqs_C9_u32_wrap_witness :
    U32MOD ≤ (List.replicate U32MOD 0).count 0 ∧
    countList (List.replicate U32MOD 0) 0 ≠ (List.replicate U32MOD 0).count 0 := by
  have hc : (List.replicate U32MOD 0).count 0 = U32MOD := List.count_replicate_self 0 U32MOD
  refine ⟨by rw [hc], ?_⟩
  exact (freqs_C9_u32_wrap (List.replicate U32MOD 0) 0).2 (by rw [hc])

/-- C10: the label mapping is not injective — bytes `0x19` and `0x1a`
both carry the label `<SUB>` — and the entry for `0x07` is the malformed
`<BEL` with no closing angle bracket. -/
theorem freqs_C10_label_quirks :
    label 0x19 = "<SUB>" ∧ label 0x1a = "<SUB>" ∧ (0x19 : Nat) ≠ 0x1a ∧
    label 0x07 = "<BEL" ∧ label 0x07 ≠ "<BEL>" :=
  ⟨rfl, rfl, by decide, rfl, by decide⟩
